import Mathlib

/-!
Verification of the hypered Bayesian hyperparameter-optimization engine.

Each section embeds one part of the Python source as Lean definitions:

* `Hypered.Dict`    — `hypered/interface/common/dict_utils.py`
  (`unwrap_dict`, `wrap_dict`, `merge_dicts`, `serialize_json`, `hash_json`);
  Python strings are modelled as `List Char`, Python dicts as association
  lists that keep insertion order and overwrite values in place, exactly as
  CPython dicts do.
* `Hypered.Space`   — `hypered/optim/space.py` (`Real.denormalize`,
  `Integer.denormalize`); float arithmetic is modelled over `ℚ` and
  Python `int()` as truncation toward zero.
* `Hypered.GP`      — `hypered/optim/gaussian_process.py`.
* `Hypered.Optim`   — `hypered/optim/bayesian_optimization.py`
  (`propose_location`, `bayesian_optimization`).
* `Hypered.Eval`    — the caching/evaluation closure `_eval` of
  `hypered/interface/optimize.py` in binary (subprocess) mode.
* `Hypered.Misc`    — the round-robin `device_id` provider of
  `hypered/interface/misc.py`.
-/

namespace Hypered

set_option maxRecDepth 40000

namespace Dict

/-! ## Dictionary utilities (`dict_utils.py`) -/
/-- Python `str`, modelled as its sequence of characters. -/
abbrev Key := List Char

/-- The separator used by `unwrap_dict` / `wrap_dict` (`sep="."`). -/
def sepChar : Char := '.'

/-- Python dict assignment `d[k] = v` on an insertion-ordered dict:
if `k` is present its value is overwritten in place, otherwise the pair is
appended at the end. -/
def dset {κ α : Type} [DecidableEq κ] : List (κ × α) → κ → α → List (κ × α)
  | [], k, v => [(k, v)]
  | (k', v') :: rest, k, v =>
      if k' = k then (k, v) :: rest else (k', v') :: dset rest k v

/-- Python dict lookup `d[k]` / membership test, as an association-list
lookup on the first matching key. -/
def dget {κ α : Type} [DecidableEq κ] : List (κ × α) → κ → Option α
  | [], _ => none
  | (k', v') :: rest, k => if k' = k then some v' else dget rest k

/-- The keys of an insertion-ordered dict, in order. -/
def dkeys {κ α : Type} (d : List (κ × α)) : List κ := d.map Prod.fst

/-- A nested JSON-like value: either a leaf of type `V` or a nested
string-keyed dict (insertion-ordered). -/
inductive NVal (V : Type) where
  | leaf : V → NVal V
  | dict : List (Key × NVal V) → NVal V

/-- A nested dict: the top level of a parameter tree. -/
abbrev NDict (V : Type) := List (Key × NVal V)

/-- Python string concatenation `suffix + sep + k if suffix else k`: note
that both `None` and the empty string are falsy, so an empty suffix yields
the bare key.  The initial `suffix=None` is modelled as the empty string. -/
def pathOf (s k : Key) : Key := if s = [] then k else s ++ sepChar :: k

/-- The recursive worker of `unwrap_dict(dic, flat, suffix, sep=".")`:
walks the entries in order, writing `flat[flat_suffix] = v` for every
non-dict value and recursing into dict values.  The accumulator `flat` is
threaded exactly like the shared mutable dict of the source. -/
def unwrapEntries {V : Type} : NDict V → List (Key × V) → Key → List (Key × V)
  | [], flat, _ => flat
  | (k, v) :: rest, flat, suffix =>
      match v with
      | .leaf x => unwrapEntries rest (dset flat (pathOf suffix k) x) suffix
      | .dict es =>
          unwrapEntries rest (unwrapEntries es flat (pathOf suffix k)) suffix

/-- `unwrap_dict(dic)`: flatten a nested dict to dotted keys. -/
def unwrap_dict {V : Type} (dic : NDict V) : List (Key × V) :=
  unwrapEntries dic [] []

/-- Python `k.split(".")` on a character list: always returns at least one
(possibly empty) component. -/
def splitDot : Key → List Key
  | [] => [[]]
  | c :: cs =>
      if c = sepChar then [] :: splitDot cs
      else
        match splitDot cs with
        | [] => [[c]]
        | r :: rs => (c :: r) :: rs

/-- Joining path components with the separator; inverse of `splitDot` on
separator-free components. -/
def joinDot : List Key → Key
  | [] => []
  | [k] => k
  | k :: ks => k ++ sepChar :: joinDot ks

/-- One iteration of the insertion loop of `wrap_dict` for a single
flattened key split into components `keys`: walk/create intermediate
dicts (`if k not in p: p[k] = {}; p = p[k]`), then assign
`p[keys[-1]] = v`.  Navigating through a non-dict value raises a
`TypeError` in Python, modelled as `none`.  (`splitDot` never returns an
empty component list, so the `[]` case is unreachable.) -/
def insertPath {V : Type} : NDict V → List Key → V → Option (NDict V)
  | _, [], _ => none
  | d, [k], v => some (dset d k (.leaf v))
  | d, k :: k₂ :: ks, v =>
      match dget d k with
      | some (.dict es) =>
          (insertPath es (k₂ :: ks) v).map fun es' => dset d k (.dict es')
      | some (.leaf _) => none
      | none =>
          (insertPath ([] : NDict V) (k₂ :: ks) v).map fun es' =>
            dset d k (.dict es')

/-- `wrap_dict(flat)`: rebuild a nested dict from dotted keys, inserting
the flat entries in order into an initially empty dict. -/
def wrap_dict {V : Type} (flat : List (Key × V)) : Option (NDict V) :=
  flat.foldl (fun acc kv => acc.bind fun d => insertPath d (splitDot kv.1) kv.2)
    (some ([] : NDict V))

/-- `merge_dicts(base, arg)`: copy `base`, then assign every entry of
`arg` in order (`merged[k] = v`). -/
def merge_dicts {κ α : Type} [DecidableEq κ] (base arg : List (κ × α)) :
    List (κ × α) :=
  arg.foldl (fun m kv => dset m kv.1 kv.2) base

/-- A key usable in the dotted-key representation: non-empty and free of
the separator character. -/
def keyOk (k : Key) : Bool := decide (k ≠ []) && decide (sepChar ∉ k)

/-- Well-formedness of a nested dict as the spec's round-trip assumes it:
at every level the keys are distinct and separator-free (and non-empty),
and every nested dict value is itself non-empty. -/
def wfEntries {V : Type} : NDict V → Bool
  | [] => true
  | (k, v) :: rest =>
      keyOk k && decide (k ∉ dkeys rest) &&
      (match v with
       | .leaf _ => true
       | .dict es => !es.isEmpty && wfEntries es) &&
      wfEntries rest

/-- The leaf paths of a nested dict in depth-first order, each path the
list of keys from the root to the leaf. -/
def pathsSpec {V : Type} : NDict V → List (List Key × V)
  | [] => []
  | (k, v) :: rest =>
      (match v with
       | .leaf x => [([k], x)]
       | .dict es => (pathsSpec es).map fun px => (k :: px.1, px.2)) ++
      pathsSpec rest

/-- Joining a path under a suffix: with an empty suffix the path stands
alone, otherwise the suffix is prepended as a further component group. -/
def preJoin (s : Key) (p : List Key) : Key :=
  if s = [] then joinDot p else joinDot (s :: p)

/-- The flattened keys that `unwrap_dict` generates for `es` under
suffix `s`. -/
def flatKeys {V : Type} (s : Key) (es : NDict V) : List Key :=
  (pathsSpec es).map fun px => preJoin s px.1

/-! ### Characterizing `unwrap_dict` -/
/-- The flat list of (dotted key, value) pairs that flattening `es` under
suffix `s` should produce: the depth-first leaf paths joined with dots. -/
def flatSpecOf {V : Type} (s : Key) (es : NDict V) : List (Key × V) :=
  (pathsSpec es).map fun px => (preJoin s px.1, px.2)

/-! ### Characterizing `wrap_dict` -/
/-- Folding `insertPath` over a list of already-split paths. -/
def insertAll {V : Type} : Option (NDict V) → List (List Key × V) → Option (NDict V)
  | acc, [] => acc
  | acc, px :: ps => insertAll (acc.bind fun d => insertPath d px.1 px.2) ps

/-! ### JSON serialization and hashing (`serialize_json`, `hash_json`)

The source serializes with `json.dumps(ast.literal_eval(str(data)), indent)`;
for a flat dict of plain keys and integer values (the sampled parameters)
with `indent=None` this is the text `{"k": v, ...}` with entries in the
dict's insertion order and `", "` / `": "` separators — `sort_keys` is never
passed, so key order is the insertion order.  `hash_json` is the MD5 hex
digest of that text. -/
/-- Decimal digit character. -/
def digitChar (d : ℕ) : Char := Char.ofNat (48 + d)

/-- Little-endian decimal digits of a natural number (fuel-structural so
the kernel can evaluate it). -/
def natCharsF : ℕ → ℕ → List Char
  | 0, _ => []
  | fuel + 1, n =>
      if n < 10 then [digitChar n] else digitChar (n % 10) :: natCharsF fuel (n / 10)

/-- Decimal representation of a natural number. -/
def natChars (n : ℕ) : List Char := (natCharsF (n + 1) n).reverse

/-- Python's decimal representation of an integer. -/
def intChars (i : ℤ) : List Char :=
  if i < 0 then '-' :: natChars i.natAbs else natChars i.toNat

/-- Joining serialized entries with the `", "` separator of `json.dumps`. -/
def joinComma : List (List Char) → List Char
  | [] => []
  | [x] => x
  | x :: xs => x ++ ',' :: ' ' :: joinComma xs

/-- `serialize_json(data, None)` for a flat string-keyed dict of integer
values: `{"k": v, ...}` in insertion order. -/
def serialize_json (d : List (Key × Int)) : List Char :=
  '{' :: joinComma (d.map fun kv => '"' :: kv.1 ++ '"' :: ':' :: ' ' :: intChars kv.2) ++
    ['}']

end Dict

namespace MD5

/-! ## MD5 (`hashlib.md5`), for the content hash of `hash_json` -/
/-- Truncation to a 32-bit word. -/
def u32 (n : ℕ) : ℕ := n % 4294967296

/-- 32-bit left rotation (argument below `2^32`). -/
def rotl (x c : ℕ) : ℕ := u32 ((x <<< c) ||| (x >>> (32 - c)))

/-- 32-bit bitwise complement. -/
def wnot (x : ℕ) : ℕ := 4294967295 ^^^ x

/-- The 64 MD5 round constants `floor(2^32 * abs(sin(i + 1)))`. -/
def md5K : List ℕ :=
  [0xd76aa478, 0xe8c7b756, 0x242070db, 0xc1bdceee,
   0xf57c0faf, 0x4787c62a, 0xa8304613, 0xfd469501,
   0x698098d8, 0x8b44f7af, 0xffff5bb1, 0x895cd7be,
   0x6b901122, 0xfd987193, 0xa679438e, 0x49b40821,
   0xf61e2562, 0xc040b340, 0x265e5a51, 0xe9b6c7aa,
   0xd62f105d, 0x02441453, 0xd8a1e681, 0xe7d3fbc8,
   0x21e1cde6, 0xc33707d6, 0xf4d50d87, 0x455a14ed,
   0xa9e3e905, 0xfcefa3f8, 0x676f02d9, 0x8d2a4c8a,
   0xfffa3942, 0x8771f681, 0x6d9d6122, 0xfde5380c,
   0xa4beea44, 0x4bdecfa9, 0xf6bb4b60, 0xbebfbc70,
   0x289b7ec6, 0xeaa127fa, 0xd4ef3085, 0x04881d05,
   0xd9d4d039, 0xe6db99e5, 0x1fa27cf8, 0xc4ac5665,
   0xf4292244, 0x432aff97, 0xab9423a7, 0xfc93a039,
   0x655b59c3, 0x8f0ccc92, 0xffeff47d, 0x85845dd1,
   0x6fa87e4f, 0xfe2ce6e0, 0xa3014314, 0x4e0811a1,
   0xf7537e82, 0xbd3af235, 0x2ad7d2bb, 0xeb86d391]

/-- The 64 per-round left-rotation amounts. -/
def md5S : List ℕ :=
  [7, 12, 17, 22, 7, 12, 17, 22, 7, 12, 17, 22, 7, 12, 17, 22,
   5, 9, 14, 20, 5, 9, 14, 20, 5, 9, 14, 20, 5, 9, 14, 20,
   4, 11, 16, 23, 4, 11, 16, 23, 4, 11, 16, 23, 4, 11, 16, 23,
   6, 10, 15, 21, 6, 10, 15, 21, 6, 10, 15, 21, 6, 10, 15, 21]

/-- The `n` low-order bytes of `x`, little-endian. -/
def leBytes : ℕ → ℕ → List ℕ
  | 0, _ => []
  | n + 1, x => (x % 256) :: leBytes n (x / 256)

/-- Grouping a byte list into little-endian 32-bit words. -/
def bytesToWords : List ℕ → List ℕ
  | b0 :: b1 :: b2 :: b3 :: rest =>
      (b0 + 256 * (b1 + 256 * (b2 + 256 * b3))) :: bytesToWords rest
  | _ => []

/-- MD5 padding: append `0x80`, zero-pad to 56 mod 64, then the 64-bit
little-endian bit length. -/
def padMessage (msg : List ℕ) : List ℕ :=
  let len := msg.length
  let z := (119 - len % 64) % 64
  msg ++ 0x80 :: List.replicate z 0 ++
    leBytes 8 ((8 * len) % 18446744073709551616)

/-- One of the 64 MD5 rounds on the state `(A, B, C, D)`. -/
def md5Round (M : List ℕ) (st : ℕ × ℕ × ℕ × ℕ) (i : ℕ) : ℕ × ℕ × ℕ × ℕ :=
  let A := st.1; let B := st.2.1; let C := st.2.2.1; let D := st.2.2.2
  let F :=
    if i < 16 then (B &&& C) ||| (wnot B &&& D)
    else if i < 32 then (D &&& B) ||| (wnot D &&& C)
    else if i < 48 then B ^^^ C ^^^ D
    else C ^^^ (B ||| wnot D)
  let g :=
    if i < 16 then i
    else if i < 32 then (5 * i + 1) % 16
    else if i < 48 then (3 * i + 5) % 16
    else (7 * i) % 16
  let F2 := u32 (F + A + md5K.getD i 0 + M.getD g 0)
  (D, u32 (B + rotl F2 (md5S.getD i 0)), B, C)

/-- Processing one 64-byte chunk. -/
def md5Chunk (st : ℕ × ℕ × ℕ × ℕ) (chunk : List ℕ) : ℕ × ℕ × ℕ × ℕ :=
  let M := bytesToWords chunk
  let r := (List.range 64).foldl (md5Round M) st
  (u32 (st.1 + r.1), u32 (st.2.1 + r.2.1), u32 (st.2.2.1 + r.2.2.1),
   u32 (st.2.2.2 + r.2.2.2))

/-- Splitting a byte list into 64-byte chunks (fuel-structural). -/
def toChunksF : ℕ → List ℕ → List (List ℕ)
  | 0, _ => []
  | _, [] => []
  | fuel + 1, c :: cs => ((c :: cs).take 64) :: toChunksF fuel ((c :: cs).drop 64)

/-- Splitting a byte list into 64-byte chunks. -/
def toChunks (l : List ℕ) : List (List ℕ) := toChunksF l.length l

/-- The 16-byte MD5 digest of a byte sequence. -/
def md5Bytes (msg : List ℕ) : List ℕ :=
  let st := (toChunks (padMessage msg)).foldl md5Chunk
    (0x67452301, 0xefcdab89, 0x98badcfe, 0x10325476)
  leBytes 4 st.1 ++ leBytes 4 st.2.1 ++ leBytes 4 st.2.2.1 ++ leBytes 4 st.2.2.2

/-- Lowercase hexadecimal character of a nibble. -/
def hexChar (n : ℕ) : Char :=
  if n < 10 then Char.ofNat (48 + n) else Char.ofNat (87 + n)

/-- `hexdigest()`: lowercase hex text of a byte sequence. -/
def hexDigest (bytes : List ℕ) : List Char :=
  (bytes.map fun b => [hexChar (b / 16), hexChar (b % 16)]).flatten

end MD5

namespace Dict

/-- `hash_json(data)`: the MD5 hex digest of
`serialize_json(data, None).encode()` (ASCII bytes). -/
def hash_json (d : List (Key × Int)) : List Char :=
  MD5.hexDigest (MD5.md5Bytes ((serialize_json d).map Char.toNat))

end Dict

namespace Space

/-! ## Variable denormalization (`space.py`)

Float arithmetic is modelled over `ℚ`; Python `int()` truncates toward
zero. -/
/-- `Real.denormalize`: `x.item() * (self.high - self.low) + self.low`. -/
def denormalizeReal (low high : ℚ) (x : ℚ) : ℚ := x * (high - low) + low

/-- Python `int()` on a number: truncation toward zero. -/
def truncInt (q : ℚ) : ℤ := if 0 ≤ q then ⌊q⌋ else ⌈q⌉

/-- `Integer.denormalize`: `int(x.item() * (self.high - self.low) + self.low)`. -/
def denormalizeInt (low high : ℤ) (x : ℚ) : ℤ :=
  truncInt (x * (((high : ℚ)) - ((low : ℚ))) + ((low : ℚ)))

end Space

namespace GP

/-! ## Gaussian process (`gaussian_process.py`)

The kernel is an arbitrary function producing a covariance matrix from two
batches of points; `np.linalg.inv` is modelled as the adjugate-based
inverse over `ℚ` (which agrees with Mathlib's `Matrix.inv`). -/
/-- The constructor state of `GaussianProcess(kernel, sigma_n)`. -/
structure Model (π : Type) where
  kernel : (p q : ℕ) → (Fin p → π) → (Fin q → π) → Matrix (Fin p) (Fin q) ℚ
  sigma_n : ℚ

/-- `np.linalg.inv` of a square rational matrix (adjugate form). -/
def matInv {n : ℕ} (A : Matrix (Fin n) (Fin n) ℚ) : Matrix (Fin n) (Fin n) ℚ :=
  A.det⁻¹ • A.adjugate

/-- The state after `fit(xs, ys)`: stored training data, the regularized
covariance `k = kernel(xs, xs) + sigma_n * eye(len(xs))` and its inverse. -/
structure Fitted (π : Type) (n : ℕ) where
  model : Model π
  xs : Fin n → π
  ys : Fin n → ℚ
  k : Matrix (Fin n) (Fin n) ℚ
  k_inv : Matrix (Fin n) (Fin n) ℚ

/-- `GaussianProcess.fit`. -/
def Model.fit {π : Type} (m : Model π) {n : ℕ} (xs : Fin n → π)
    (ys : Fin n → ℚ) : Fitted π n :=
  let k := m.kernel n n xs xs + m.sigma_n • (1 : Matrix (Fin n) (Fin n) ℚ)
  ⟨m, xs, ys, k, matInv k⟩

/-- `GaussianProcess.predict`:
`k_s = kernel(x, xs)`, `k_ss = kernel(x, x) + sigma_n * eye(len(x))`,
`mu_s = k_s.dot(k_inv).dot(ys)`, `cov_s = k_ss - k_s.dot(k_inv).dot(k_s.T)`. -/
def Fitted.predict {π : Type} {n : ℕ} (f : Fitted π n) {p : ℕ}
    (x : Fin p → π) : (Fin p → ℚ) × Matrix (Fin p) (Fin p) ℚ :=
  let k_s := f.model.kernel p n x f.xs
  let k_ss := f.model.kernel p p x x + f.model.sigma_n • (1 : Matrix (Fin p) (Fin p) ℚ)
  ((k_s * f.k_inv).mulVec f.ys, k_ss - k_s * f.k_inv * k_s.transpose)

end GP

namespace Optim

/-! ## Optimization loop (`bayesian_optimization.py`) -/
/-- One comparison step of the restart loop of `propose_location`:
`min_val` starts at `np.inf` (modelled `none`, which any finite score
beats) and is replaced only on a strict `res.fun < min_val`. -/
def proposeStep {σ : Type} (acc : Option (σ × ℚ)) (r : σ × ℚ) : Option (σ × ℚ) :=
  match acc with
  | none => some r
  | some b => if r.2 < b.2 then some r else some b

/-- `propose_location`: run the local optimizer (`scipy.optimize.minimize`,
modelled as an arbitrary deterministic function from the start point to
`(res.x, res.fun)`) from each sampled start, keeping the strictly best
result; `none` corresponds to the `min_x = None` of an empty restart list. -/
def propose_location {σ : Type} (minimizeFn : σ → σ × ℚ) (starts : List σ) :
    Option σ :=
  ((starts.map minimizeFn).foldl proposeStep none).map Prod.fst

/-- The GP-guided phase of `bayesian_optimization`: each iteration fits the
model on `(xs_n, ys)`, computes `y_opt = min(ys)` and proposes the next
point — all of which `propose` absorbs as a function of `xs_n` and `ys` —
then denormalizes, evaluates the loss once, and appends to all three
lists. -/
def gpLoop {σ α : Type} (propose : List σ → List ℚ → σ) (denorm : σ → α)
    (loss : α → ℚ) : ℕ → List σ × List α × List ℚ → List σ × List α × List ℚ
  | 0, s => s
  | n + 1, (xsn, xs, ys) =>
      let x_n := propose xsn ys
      let x := denorm x_n
      let y := loss x
      gpLoop propose denorm loss n (xsn ++ [x_n], xs ++ [x], ys ++ [y])

/-- `bayesian_optimization(loss_fn, vars, ...)`: sample `n_initial_points`
normalized points (`stream i` is the i-th sampled point), denormalize and
evaluate each once, then run `n_calls - n_initial_points` GP-guided
iterations (`range` of a negative length is empty, matching truncated
subtraction), and return `list(zip(xs, ys))`. -/
def bayesian_optimization {σ α : Type} (stream : ℕ → σ)
    (propose : List σ → List ℚ → σ) (denorm : σ → α) (loss : α → ℚ)
    (n_initial_points n_calls : ℕ) : List (α × ℚ) :=
  let xs_n := (List.range n_initial_points).map stream
  let xs := xs_n.map denorm
  let ys := xs.map loss
  let r := gpLoop propose denorm loss (n_calls - n_initial_points) (xs_n, xs, ys)
  r.2.1.zip r.2.2

end Optim

namespace Eval

/-! ## Evaluation and caching (`optimize.py`, the `_eval` closure, binary
mode)

The filesystem is modelled as two insertion-ordered stores: parsed
`results.json` contents and written `params.json` contents, keyed by path.
The spawned subprocess is an arbitrary function `exec` from the two paths
and the current store state to an exit status and a new state; `_eval`
calls `popen.wait()` but never reads the returned status. -/
/-- The observable file state: `results.json` contents (as parsed values of
type `ρ`) and `params.json` contents, keyed by absolute path. -/
structure FState (ρ : Type) where
  results : List (Dict.Key × ρ)
  params : List (Dict.Key × Dict.NDict Int)

/-- The name suffix `/params.json`. -/
def paramsName : Dict.Key := ['/', 'p', 'a', 'r', 'a', 'm', 's', '.', 'j', 's', 'o', 'n']

/-- The name suffix `/results.json`. -/
def resultsName : Dict.Key := ['/', 'r', 'e', 's', 'u', 'l', 't', 's', '.', 'j', 's', 'o', 'n']

/-- `experiment_dir = os.path.join(output_dir, hash_json(sample_params))`
for `sample_params = dict(zip(keys, values))`. -/
def experimentDir (outputDir : Dict.Key) (keys : List Dict.Key)
    (values : List Int) : Dict.Key :=
  outputDir ++ '/' :: Dict.hash_json (keys.zip values)

/-- The outcome of one `_eval` call: the experiment directory it used, the
parsed results, the objective value, whether the subprocess was launched,
and the file state afterwards. -/
structure EvalOut (ρ : Type) where
  dir : Dict.Key
  res : ρ
  loss : ℚ
  executed : Bool
  state : FState ρ

/-- The `_eval` closure in binary (subprocess) mode.  Steps, as in the
source: build `sample_params = dict(zip(keys, values))`, merge into the
base flat params and re-nest (`wrap_dict`, whose `TypeError` is `none`);
derive the experiment directory from `hash_json(sample_params)`; the
callable-resolution pass keeps every entry unchanged because all leaves
here are literals; write `params.json`; if `results.json` does not already
exist, launch the subprocess and wait (its exit status is dropped); finally
read `results.json`, `none` when it is absent (`FileNotFoundError`).
Directory creation (`os.makedirs`) is not modelled: only file contents are
observable here. -/
def evalBinary {ρ : Type} (outputDir : Dict.Key) (keys : List Dict.Key)
    (base : List (Dict.Key × Int)) (objective : ρ → ℚ)
    (exec : Dict.Key → Dict.Key → FState ρ → Int × FState ρ)
    (st : FState ρ) (values : List Int) : Option (EvalOut ρ) :=
  let sampleParams := keys.zip values
  match Dict.wrap_dict (Dict.merge_dicts base sampleParams) with
  | none => none
  | some wraped =>
    let dir := experimentDir outputDir keys values
    let paramsPath := dir ++ paramsName
    let resultsPath := dir ++ resultsName
    let st₁ : FState ρ := { st with params := Dict.dset st.params paramsPath wraped }
    let runIt := (Dict.dget st₁.results resultsPath).isNone
    let st₂ := if runIt then (exec paramsPath resultsPath st₁).2 else st₁
    match Dict.dget st₂.results resultsPath with
    | none => none
    | some r => some ⟨dir, r, objective r, runIt, st₂⟩

end Eval

namespace Misc

/-! ## Round-robin device ids (`misc.py`) -/
/-- The `device_id` provider state: the pool size and the private counter,
initialized to `-1` by `__init__`. -/
structure DeviceId where
  count : ℤ
  index : ℤ

/-- `device_id(count)`. -/
def deviceIdInit (count : ℤ) : DeviceId := ⟨count, -1⟩

/-- `__call__(ctx)`: `self.index = (self.index + 1) % self.count; return
self.index`.  The context argument is ignored, and for a positive `count`
the Lean `%` on `ℤ` agrees with Python's `%`. -/
def DeviceId.call {γ : Type} (d : DeviceId) (ctx : γ) : ℤ × DeviceId :=
  let idx := (d.index + 1) % d.count
  (idx, ⟨d.count, idx⟩)

/-- The provider state after the first `n` calls with contexts
`ctxs 0, …, ctxs (n-1)`. -/
def callSeq {γ : Type} (d : DeviceId) (ctxs : ℕ → γ) : ℕ → DeviceId
  | 0 => d
  | n + 1 => ((callSeq d ctxs n).call (ctxs n)).2

end Misc

/-! ## Theorems about the embedded definitions, and the claims -/

namespace Dict

/-! ### Association-list lemmas -/
theorem dget_eq_none {κ α : Type} [DecidableEq κ] (d : List (κ × α)) (k : κ) :
    dget d k = none ↔ k ∉ dkeys d := by
  induction d with
  | nil => simp [dget, dkeys]
  | cons kv rest ih =>
      obtain ⟨k', v'⟩ := kv
      by_cases h : k' = k <;> simp [dget, dkeys, h, ih, Ne.symm]

theorem dset_eq_append {κ α : Type} [DecidableEq κ] (d : List (κ × α))
    (k : κ) (v : α) (h : k ∉ dkeys d) : dset d k v = d ++ [(k, v)] := by
  induction d with
  | nil => simp [dset]
  | cons kv rest ih =>
      obtain ⟨k', v'⟩ := kv
      simp only [dkeys, List.map_cons, List.mem_cons] at h
      push_neg at h
      simp [dset, Ne.symm h.1, ih h.2]

theorem dget_dset_self {κ α : Type} [DecidableEq κ] (d : List (κ × α))
    (k : κ) (v : α) : dget (dset d k v) k = some v := by
  induction d with
  | nil => simp [dset, dget]
  | cons kv rest ih =>
      obtain ⟨k', v'⟩ := kv
      by_cases h : k' = k <;> simp [dset, dget, h, ih]

theorem dset_dset {κ α : Type} [DecidableEq κ] (d : List (κ × α))
    (k : κ) (v w : α) : dset (dset d k v) k w = dset d k w := by
  induction d with
  | nil => simp [dset]
  | cons kv rest ih =>
      obtain ⟨k', v'⟩ := kv
      by_cases h : k' = k <;> simp [dset, h, ih]

theorem dget_append {κ α : Type} [DecidableEq κ] (a b : List (κ × α))
    (k : κ) :
    dget (a ++ b) k = match dget a k with
      | some v => some v
      | none => dget b k := by
  induction a with
  | nil => simp [dget]
  | cons kv rest ih =>
      obtain ⟨k', v'⟩ := kv
      by_cases h : k' = k <;> simp [dget, h, ih]

theorem dkeys_append {κ α : Type} (a b : List (κ × α)) :
    dkeys (a ++ b) = dkeys a ++ dkeys b := by
  simp [dkeys]

theorem dkeys_cons {κ α : Type} (k : κ) (v : α) (rest : List (κ × α)) :
    dkeys ((k, v) :: rest) = k :: dkeys rest := rfl

/-! ### Split/join lemmas -/
theorem splitDot_ne_nil (k : Key) : splitDot k ≠ [] := by
  induction k with
  | nil => simp [splitDot]
  | cons c cs ih =>
      by_cases h : c = sepChar
      · simp [splitDot, h]
      · simp only [splitDot, if_neg h]
        cases hs : splitDot cs with
        | nil => simp
        | cons r rs => simp

theorem splitDot_sepFree (k : Key) (h : sepChar ∉ k) : splitDot k = [k] := by
  induction k with
  | nil => simp [splitDot]
  | cons c cs ih =>
      simp only [List.mem_cons] at h
      push_neg at h
      rw [splitDot, if_neg (fun hc => h.1 hc.symm), ih h.2]

theorem splitDot_append (a b : Key) (h : sepChar ∉ a) :
    splitDot (a ++ sepChar :: b) = a :: splitDot b := by
  induction a with
  | nil => simp [splitDot]
  | cons c cs ih =>
      simp only [List.mem_cons] at h
      push_neg at h
      rw [List.cons_append, splitDot, if_neg (fun hc => h.1 hc.symm),
        ih h.2]

theorem splitDot_joinDot (p : List Key) (hne : p ≠ [])
    (h : ∀ c ∈ p, sepChar ∉ c) : splitDot (joinDot p) = p := by
  induction p with
  | nil => exact absurd rfl hne
  | cons k ks ih =>
      cases ks with
      | nil => exact splitDot_sepFree k (h k (by simp))
      | cons k₂ ks' =>
          have hj : joinDot (k :: k₂ :: ks') = k ++ sepChar :: joinDot (k₂ :: ks') :=
            rfl
          rw [hj, splitDot_append _ _ (h k (by simp))]
          rw [ih (List.cons_ne_nil _ _)
            (fun c hc => h c (List.mem_cons_of_mem _ hc))]

theorem joinDot_collapse (a b : Key) (ps : List Key) :
    joinDot ((a ++ sepChar :: b) :: ps) = joinDot (a :: b :: ps) := by
  cases ps with
  | nil => simp [joinDot]
  | cons q qs => simp [joinDot]

theorem preJoin_pathOf (s k : Key) (p : List Key) (hk : s = [] → k ≠ []) :
    preJoin (pathOf s k) p = preJoin s (k :: p) := by
  by_cases hs : s = []
  · subst hs
    simp [pathOf, preJoin, hk rfl, joinDot]
  · have hne : s ++ sepChar :: k ≠ [] := by
      cases s with
      | nil => exact absurd rfl hs
      | cons c cs => simp
    simp only [pathOf, if_neg hs, preJoin, if_neg hne, if_neg hs]
    exact joinDot_collapse s k p

theorem dkeys_flatSpecOf {V : Type} (s : Key) (es : NDict V) :
    dkeys (flatSpecOf s es) = flatKeys s es := by
  simp [dkeys, flatSpecOf, flatKeys]

theorem preJoin_single (s k : Key) : preJoin s [k] = pathOf s k := by
  by_cases hs : s = [] <;> simp [preJoin, pathOf, joinDot, hs]

theorem flatSpecOf_cons_leaf {V : Type} (s k : Key) (x : V) (rest : NDict V) :
    flatSpecOf s ((k, .leaf x) :: rest) =
      (pathOf s k, x) :: flatSpecOf s rest := by
  simp [flatSpecOf, pathsSpec, preJoin_single]

theorem flatSpecOf_cons_dict {V : Type} (s k : Key) (es' rest : NDict V)
    (hk : s = [] → k ≠ []) :
    flatSpecOf s ((k, .dict es') :: rest) =
      flatSpecOf (pathOf s k) es' ++ flatSpecOf s rest := by
  simp only [flatSpecOf, pathsSpec, List.map_append, List.map_map]
  congr 1
  apply List.map_congr_left
  intro px _
  simp [Function.comp, preJoin_pathOf s k px.1 hk]

theorem preJoin_nil {p : List Key} : preJoin [] p = joinDot p := by
  simp [preJoin]

theorem flatKeys_cons_leaf {V : Type} (s k : Key) (x : V) (rest : NDict V) :
    flatKeys s ((k, .leaf x) :: rest) = pathOf s k :: flatKeys s rest := by
  simp [flatKeys, pathsSpec, preJoin_single]

theorem flatKeys_cons_dict {V : Type} (s k : Key) (es' rest : NDict V)
    (hk : s = [] → k ≠ []) :
    flatKeys s ((k, .dict es') :: rest) =
      flatKeys (pathOf s k) es' ++ flatKeys s rest := by
  simp only [flatKeys, pathsSpec, List.map_append, List.map_map]
  congr 1
  apply List.map_congr_left
  intro px _
  simp [Function.comp, preJoin_pathOf s k px.1 hk]

/-- Every leaf path of a well-formed dict starts with one of its keys and
consists of well-formed components. -/
theorem paths_shape {V : Type} : ∀ (es : NDict V), wfEntries es = true →
    ∀ p x, (p, x) ∈ pathsSpec es →
      ∃ k p', p = k :: p' ∧ k ∈ dkeys es ∧ ∀ c ∈ p, keyOk c = true
  | [], _, p, x, hmem => by simp [pathsSpec] at hmem
  | (k, .leaf y) :: rest, hwf, p, x, hmem => by
      simp only [wfEntries, Bool.and_eq_true, decide_eq_true_eq] at hwf
      obtain ⟨⟨⟨hkOk, -⟩, -⟩, hwfRest⟩ := hwf
      simp only [pathsSpec, List.singleton_append, List.mem_cons,
        Prod.mk.injEq] at hmem
      rcases hmem with ⟨hp, -⟩ | hmem
      · exact ⟨k, [], hp, by rw [dkeys_cons]; exact List.mem_cons_self _ _,
          by simp [hp, hkOk]⟩
      · obtain ⟨k', p', hp, hkm, hcomp⟩ := paths_shape rest hwfRest p x hmem
        exact ⟨k', p', hp,
          by rw [dkeys_cons]; exact List.mem_cons_of_mem _ hkm, hcomp⟩
  | (k, .dict es') :: rest, hwf, p, x, hmem => by
      simp only [wfEntries, Bool.and_eq_true, decide_eq_true_eq] at hwf
      obtain ⟨⟨⟨hkOk, -⟩, -, hwfInner⟩, hwfRest⟩ := hwf
      simp only [pathsSpec, List.mem_append, List.mem_map] at hmem
      rcases hmem with ⟨px, hqmem, hq⟩ | hmem
      · obtain ⟨q, y⟩ := px
        have hq1 : k :: q = p := congrArg Prod.fst hq
        obtain ⟨-, q', -, -, hcomp⟩ := paths_shape es' hwfInner q y hqmem
        refine ⟨k, q, hq1.symm,
          by rw [dkeys_cons]; exact List.mem_cons_self _ _, ?_⟩
        intro c hc
        rw [← hq1] at hc
        rcases List.mem_cons.mp hc with hc | hc
        · exact hc ▸ hkOk
        · exact hcomp c hc
      · obtain ⟨k', p', hp, hkm, hcomp⟩ := paths_shape rest hwfRest p x hmem
        exact ⟨k', p', hp,
          by rw [dkeys_cons]; exact List.mem_cons_of_mem _ hkm, hcomp⟩

/-- The leaf paths of a well-formed dict are pairwise distinct. -/
theorem paths_nodup {V : Type} : ∀ (es : NDict V), wfEntries es = true →
    ((pathsSpec es).map Prod.fst).Nodup
  | [], _ => by simp [pathsSpec]
  | (k, .leaf y) :: rest, hwf => by
      simp only [wfEntries, Bool.and_eq_true, decide_eq_true_eq] at hwf
      obtain ⟨⟨⟨-, hknm⟩, -⟩, hwfRest⟩ := hwf
      simp only [pathsSpec, List.singleton_append, List.map_cons]
      refine List.Nodup.cons ?_ (paths_nodup rest hwfRest)
      intro hmem
      obtain ⟨px, hpx, hp⟩ := List.mem_map.mp hmem
      obtain ⟨p, x⟩ := px
      have hp' : p = [k] := hp
      obtain ⟨k', p', hshape, hkm, -⟩ := paths_shape rest hwfRest p x hpx
      rw [hp'] at hshape
      injection hshape with h1 h2
      exact hknm (by rw [h1]; exact hkm)
  | (k, .dict es') :: rest, hwf => by
      simp only [wfEntries, Bool.and_eq_true, decide_eq_true_eq] at hwf
      obtain ⟨⟨⟨-, hknm⟩, -, hwfInner⟩, hwfRest⟩ := hwf
      simp only [pathsSpec, List.map_append, List.map_map]
      refine List.Nodup.append ?_ (paths_nodup rest hwfRest) ?_
      · have hinj : Function.Injective (List.cons k) := fun a b h => by
          injection h
        have := (paths_nodup es' hwfInner).map hinj
        simpa [List.map_map, Function.comp] using this
      · intro p hp hp'
        obtain ⟨px1, hq, hqe⟩ := List.mem_map.mp hp
        obtain ⟨q, y⟩ := px1
        have hqe' : k :: q = p := hqe
        obtain ⟨px2, hr, hre⟩ := List.mem_map.mp hp'
        obtain ⟨r, z⟩ := px2
        have hre' : r = p := hre
        obtain ⟨k', r', hshape, hkm, -⟩ := paths_shape rest hwfRest r z hr
        rw [hre', ← hqe'] at hshape
        injection hshape with h1 h2
        exact hknm (by rw [h1]; exact hkm)

/-- The accumulator-threaded `unwrap_dict` worker produces exactly the
depth-first dotted flat list, appended to the incoming accumulator,
whenever the generated keys are distinct and fresh. -/
theorem unwrapEntries_spec {V : Type} : ∀ (es : NDict V),
    wfEntries es = true → ∀ (s : Key) (flat : List (Key × V)),
      (∀ q ∈ flatKeys s es, q ∉ dkeys flat) → (flatKeys s es).Nodup →
      unwrapEntries es flat s = flat ++ flatSpecOf s es
  | [], _, s, flat, _, _ => by simp [unwrapEntries, flatSpecOf, pathsSpec]
  | (k, .leaf x) :: rest, hwf, s, flat, hfresh, hnd => by
      simp only [wfEntries, Bool.and_eq_true, decide_eq_true_eq] at hwf
      obtain ⟨⟨⟨hkOk, -⟩, -⟩, hwfRest⟩ := hwf
      rw [flatKeys_cons_leaf] at hfresh hnd
      rw [unwrapEntries, dset_eq_append flat _ x (hfresh _ (by simp))]
      rw [unwrapEntries_spec rest hwfRest s (flat ++ [(pathOf s k, x)]) ?_ ?_]
      · rw [flatSpecOf_cons_leaf, List.append_assoc, List.singleton_append]
      · intro q hq
        rw [dkeys_append]
        simp only [List.mem_append, dkeys, List.map_cons, List.map_nil,
          List.mem_singleton, not_or]
        refine ⟨hfresh q (by simp [hq]), ?_⟩
        intro hqe
        exact (List.nodup_cons.mp hnd).1 (hqe ▸ hq)
      · exact (List.nodup_cons.mp hnd).2
  | (k, .dict es') :: rest, hwf, s, flat, hfresh, hnd => by
      simp only [wfEntries, Bool.and_eq_true, decide_eq_true_eq] at hwf
      obtain ⟨⟨⟨hkOk, -⟩, -, hwfInner⟩, hwfRest⟩ := hwf
      have hkne : s = [] → k ≠ [] := fun _ => by
        simp only [keyOk, Bool.and_eq_true, decide_eq_true_eq] at hkOk
        exact hkOk.1
      rw [flatKeys_cons_dict s k es' rest hkne] at hfresh hnd
      rw [unwrapEntries]
      rw [unwrapEntries_spec es' hwfInner (pathOf s k) flat
        (fun q hq => hfresh q (by simp [hq]))
        (hnd.sublist (List.sublist_append_left _ _))]
      rw [unwrapEntries_spec rest hwfRest s (flat ++ flatSpecOf (pathOf s k) es')
        ?_ (hnd.sublist (List.sublist_append_right _ _))]
      · rw [flatSpecOf_cons_dict s k es' rest hkne, List.append_assoc]
      · intro q hq
        rw [dkeys_append, dkeys_flatSpecOf]
        simp only [List.mem_append, not_or]
        refine ⟨hfresh q (by simp [hq]), ?_⟩
        intro hqin
        exact (List.disjoint_of_nodup_append hnd) hqin hq

/-- `unwrap_dict` of a well-formed nested dict is the dot-joined list of
its depth-first leaf paths. -/
theorem unwrap_dict_eq {V : Type} (d : NDict V) (h : wfEntries d = true) :
    unwrap_dict d = flatSpecOf [] d := by
  have hinj : ∀ p ∈ (pathsSpec d).map Prod.fst,
      ∀ q ∈ (pathsSpec d).map Prod.fst, preJoin [] p = preJoin [] q → p = q := by
    intro p hp q hq hpq
    obtain ⟨px, hx, hxe⟩ := List.mem_map.mp hp
    obtain ⟨p₀, x⟩ := px
    have hxe' : p₀ = p := hxe
    subst hxe'
    obtain ⟨qx, hy, hye⟩ := List.mem_map.mp hq
    obtain ⟨q₀, y⟩ := qx
    have hye' : q₀ = q := hye
    subst hye'
    obtain ⟨kp, pp, hshp, -, hcompP⟩ := paths_shape d h p₀ x hx
    obtain ⟨kq, qq, hshq, -, hcompQ⟩ := paths_shape d h q₀ y hy
    rw [preJoin_nil, preJoin_nil] at hpq
    have h1 : splitDot (joinDot p₀) = p₀ := by
      refine splitDot_joinDot p₀ (by rw [hshp]; exact List.cons_ne_nil _ _) ?_
      intro c hc
      have := hcompP c hc
      simp only [keyOk, Bool.and_eq_true, decide_eq_true_eq] at this
      exact this.2
    have h2 : splitDot (joinDot q₀) = q₀ := by
      refine splitDot_joinDot q₀ (by rw [hshq]; exact List.cons_ne_nil _ _) ?_
      intro c hc
      have := hcompQ c hc
      simp only [keyOk, Bool.and_eq_true, decide_eq_true_eq] at this
      exact this.2
    rw [← h1, ← h2, hpq]
  have hnd : (flatKeys [] d).Nodup := by
    have : flatKeys [] d = ((pathsSpec d).map Prod.fst).map (preJoin []) := by
      simp [flatKeys, List.map_map]
    rw [this]
    exact (paths_nodup d h).map_on hinj
  exact unwrapEntries_spec d h [] [] (by simp [dkeys]) hnd

theorem wrap_dict_eq_insertAll {V : Type} (flat : List (Key × V)) :
    wrap_dict flat =
      insertAll (some []) (flat.map fun kv => (splitDot kv.1, kv.2)) := by
  rw [wrap_dict]
  generalize (some ([] : NDict V)) = acc
  induction flat generalizing acc with
  | nil => rfl
  | cons kv rest ih => rw [List.map_cons, List.foldl_cons, insertAll, ih]

theorem insertAll_none {V : Type} (ps : List (List Key × V)) :
    insertAll none ps = none := by
  induction ps with
  | nil => rfl
  | cons px ps ih => rw [insertAll, Option.none_bind, ih]

theorem insertAll_append {V : Type} (ps qs : List (List Key × V))
    (acc : Option (NDict V)) :
    insertAll acc (ps ++ qs) = insertAll (insertAll acc ps) qs := by
  induction ps generalizing acc with
  | nil => rfl
  | cons px ps ih => rw [List.cons_append, insertAll, insertAll, ih]

/-- Inserting a non-empty batch of paths that all start with the same key
`k` is the same as inserting their tails into the dict stored at `k`
(creating it when absent) and writing the result back at `k`. -/
theorem insertAll_consPaths {V : Type} (k : Key) :
    ∀ (ps : List (List Key × V)) (acc cur : NDict V),
      (dget acc k = some (.dict cur) ∨ (dget acc k = none ∧ cur = [])) →
      ps ≠ [] → (∀ px ∈ ps, px.1 ≠ []) →
      insertAll (some acc) (ps.map fun px => (k :: px.1, px.2)) =
        (insertAll (some cur) ps).map fun es' => dset acc k (.dict es')
  | [], _, _, _, hne, _ => absurd rfl hne
  | [(p, v)], acc, cur, hget, _, hpne => by
      obtain ⟨k₂, ks, rfl⟩ : ∃ a l, p = a :: l := by
        cases p with
        | nil => exact absurd rfl (hpne ([], v) (by simp))
        | cons a l => exact ⟨a, l, rfl⟩
      rcases hget with hget | ⟨hget, rfl⟩ <;>
        simp [insertAll, insertPath, hget]
  | (p, v) :: px₂ :: ps, acc, cur, hget, _, hpne => by
      obtain ⟨k₂, ks, rfl⟩ : ∃ a l, p = a :: l := by
        cases p with
        | nil => exact absurd rfl (hpne ([], v) (by simp))
        | cons a l => exact ⟨a, l, rfl⟩
      have hstep : ((some acc).bind fun d => insertPath d (k :: k₂ :: ks) v) =
          (insertPath cur (k₂ :: ks) v).map fun es' => dset acc k (.dict es') := by
        rcases hget with hget | ⟨hget, rfl⟩ <;> simp [insertPath, hget]
      rw [List.map_cons, insertAll, hstep]
      conv_rhs => rw [insertAll, Option.some_bind]
      cases hins : insertPath cur (k₂ :: ks) v with
      | none =>
          simp only [hins, Option.map_none', insertAll_none]
      | some c₁ =>
          simp only [hins, Option.map_some']
          rw [insertAll_consPaths k (px₂ :: ps) (dset acc k (.dict c₁)) c₁
            (Or.inl (dget_dset_self acc k (.dict c₁)))
            (List.cons_ne_nil _ _)
            (fun px hpx => hpne px (List.mem_cons_of_mem _ hpx))]
          have hfun : (fun es' => dset (dset acc k (.dict c₁)) k (.dict es')) =
              fun es' : NDict V => dset acc k (.dict es') := by
            funext es'
            exact dset_dset acc k _ _
          rw [hfun]

theorem paths_ne_nil {V : Type} (es : NDict V) (hwf : wfEntries es = true) :
    ∀ px ∈ pathsSpec es, px.1 ≠ [] := by
  intro px hmem
  obtain ⟨p, x⟩ := px
  obtain ⟨k', p', hp, -, -⟩ := paths_shape es hwf p x hmem
  simp only [hp]
  exact List.cons_ne_nil _ _

theorem pathsSpec_ne_nil {V : Type} : ∀ (es : NDict V),
    wfEntries es = true → es ≠ [] → pathsSpec es ≠ []
  | [], _, hne => absurd rfl hne
  | (k, .leaf x) :: rest, _, _ => by simp [pathsSpec]
  | (k, .dict es') :: rest, hwf, _ => by
      simp only [wfEntries, Bool.and_eq_true, decide_eq_true_eq,
        Bool.not_eq_true', List.isEmpty_eq_false] at hwf
      obtain ⟨⟨-, hne', hwfInner⟩, -⟩ := hwf
      have h := pathsSpec_ne_nil es' hwfInner hne'
      simp only [pathsSpec, ne_eq, List.append_eq_nil, List.map_eq_nil_iff,
        not_and]
      intro hmap
      exact absurd hmap h

/-- Inserting the depth-first paths of a well-formed dict into any dict
whose keys are disjoint from its top-level keys appends it entirely. -/
theorem insertAll_pathsSpec {V : Type} : ∀ (es : NDict V),
    wfEntries es = true → ∀ acc : NDict V,
      (∀ k ∈ dkeys es, dget acc k = none) →
      insertAll (some acc) (pathsSpec es) = some (acc ++ es)
  | [], _, acc, _ => by simp [pathsSpec, insertAll]
  | (k, .leaf x) :: rest, hwf, acc, hacc => by
      simp only [wfEntries, Bool.and_eq_true, decide_eq_true_eq] at hwf
      obtain ⟨⟨⟨-, hknm⟩, -⟩, hwfRest⟩ := hwf
      have hk : dget acc k = none := hacc k (by
        rw [dkeys_cons]; exact List.mem_cons_self _ _)
      have hsub : ∀ k' ∈ dkeys rest, dget (acc ++ [(k, NVal.leaf x)]) k' = none := by
        intro k' hk'
        rw [dget_append]
        have hkk' : k' ≠ k := fun he => hknm (he ▸ hk')
        rw [hacc k' (by rw [dkeys_cons]; exact List.mem_cons_of_mem _ hk')]
        simp [dget, Ne.symm hkk']
      simp only [pathsSpec, List.singleton_append]
      rw [insertAll, Option.some_bind]
      have h1 : insertPath acc [k] x = some (dset acc k (.leaf x)) := rfl
      rw [h1, dset_eq_append acc k _ ((dget_eq_none acc k).mp hk)]
      rw [insertAll_pathsSpec rest hwfRest (acc ++ [(k, NVal.leaf x)]) hsub]
      rw [List.append_assoc, List.singleton_append]
  | (k, .dict es') :: rest, hwf, acc, hacc => by
      simp only [wfEntries, Bool.and_eq_true, decide_eq_true_eq,
        Bool.not_eq_true', List.isEmpty_eq_false] at hwf
      obtain ⟨⟨⟨-, hknm⟩, hne', hwfInner⟩, hwfRest⟩ := hwf
      have hk : dget acc k = none := hacc k (by
        rw [dkeys_cons]; exact List.mem_cons_self _ _)
      have hsub : ∀ k' ∈ dkeys rest, dget (acc ++ [(k, NVal.dict es')]) k' = none := by
        intro k' hk'
        rw [dget_append]
        have hkk' : k' ≠ k := fun he => hknm (he ▸ hk')
        rw [hacc k' (by rw [dkeys_cons]; exact List.mem_cons_of_mem _ hk')]
        simp [dget, Ne.symm hkk']
      simp only [pathsSpec]
      rw [insertAll_append]
      rw [insertAll_consPaths k (pathsSpec es') acc [] (Or.inr ⟨hk, rfl⟩)
        (pathsSpec_ne_nil es' hwfInner hne') (paths_ne_nil es' hwfInner)]
      rw [insertAll_pathsSpec es' hwfInner [] (fun _ _ => rfl)]
      simp only [List.nil_append, Option.map_some']
      rw [dset_eq_append acc k _ ((dget_eq_none acc k).mp hk)]
      rw [insertAll_pathsSpec rest hwfRest (acc ++ [(k, NVal.dict es')]) hsub]
      rw [List.append_assoc, List.singleton_append]

/-- The amended round trip: flattening a well-formed nested dict (distinct
separator-free non-empty keys, no empty nested dict) and un-flattening it
returns the identical structure. -/
theorem wrap_unwrap_dict {V : Type} (d : NDict V) (h : wfEntries d = true) :
    wrap_dict (unwrap_dict d) = some d := by
  rw [unwrap_dict_eq d h, wrap_dict_eq_insertAll]
  have hmap : (flatSpecOf [] d).map (fun kv => (splitDot kv.1, kv.2)) =
      pathsSpec d := by
    rw [flatSpecOf, List.map_map]
    have hcongr : ∀ px ∈ pathsSpec d,
        ((fun kv : Key × V => (splitDot kv.1, kv.2)) ∘
          fun px : List Key × V => (preJoin [] px.1, px.2)) px = id px := by
      intro px hmem
      obtain ⟨p, x⟩ := px
      obtain ⟨k', p', hp, -, hcomp⟩ := paths_shape d h p x hmem
      simp only [Function.comp, preJoin_nil, id]
      rw [splitDot_joinDot p (by rw [hp]; exact List.cons_ne_nil _ _) ?_]
      intro c hc
      have := hcomp c hc
      simp only [keyOk, Bool.and_eq_true, decide_eq_true_eq] at this
      exact this.2
    rw [List.map_congr_left hcongr, List.map_id]
  rw [hmap]
  rw [insertAll_pathsSpec d h [] (fun _ _ => rfl)]
  rw [List.nil_append]

end Dict

namespace Misc

theorem callSeq_state {γ : Type} (count : ℤ) (ctxs : ℕ → γ) :
    ∀ n : ℕ, (callSeq (deviceIdInit count) ctxs n).count = count ∧
      (callSeq (deviceIdInit count) ctxs n).index =
        if n = 0 then -1 else ((n : ℤ) - 1) % count := by
  intro n
  induction n with
  | zero => exact ⟨rfl, rfl⟩
  | succ m ih =>
      obtain ⟨hcnt, hidx⟩ := ih
      refine ⟨by simp [callSeq, DeviceId.call, hcnt], ?_⟩
      simp only [callSeq, DeviceId.call, hcnt, hidx]
      by_cases hm : m = 0
      · subst hm
        norm_num
      · simp only [if_neg hm, if_neg (Nat.succ_ne_zero m)]
        rw [Int.emod_add_emod]
        congr 1
        push_cast
        ring

end Misc

namespace GP

theorem matInv_eq_inv {n : ℕ} (A : Matrix (Fin n) (Fin n) ℚ) :
    matInv A = A⁻¹ := by
  rw [matInv, Matrix.inv_def, Ring.inverse_eq_inv']

end GP

namespace Optim

/-- The state invariant of the GP-guided loop: the denormalized points and
the objective values are always images of the normalized points, and each
iteration appends exactly one of each. -/
theorem gpLoop_spec {σ α : Type} (propose : List σ → List ℚ → σ)
    (denorm : σ → α) (loss : α → ℚ) :
    ∀ (n : ℕ) (xsn : List σ), ∃ ext : List σ, ext.length = n ∧
      gpLoop propose denorm loss n
        (xsn, xsn.map denorm, xsn.map fun s => loss (denorm s)) =
      (xsn ++ ext, (xsn ++ ext).map denorm,
        (xsn ++ ext).map fun s => loss (denorm s)) := by
  intro n
  induction n with
  | zero => exact fun xsn => ⟨[], rfl, by simp [gpLoop]⟩
  | succ m ih =>
      intro xsn
      obtain ⟨ext, hlen, heq⟩ :=
        ih (xsn ++ [propose xsn (xsn.map fun s => loss (denorm s))])
      refine ⟨propose xsn (xsn.map fun s => loss (denorm s)) :: ext,
        by simp [hlen], ?_⟩
      rw [gpLoop]
      rw [show (xsn.map denorm) ++ [denorm (propose xsn (xsn.map fun s => loss (denorm s)))] =
        (xsn ++ [propose xsn (xsn.map fun s => loss (denorm s))]).map denorm by simp]
      rw [show (xsn.map fun s => loss (denorm s)) ++
          [loss (denorm (propose xsn (xsn.map fun s => loss (denorm s))))] =
        (xsn ++ [propose xsn (xsn.map fun s => loss (denorm s))]).map
          (fun s => loss (denorm s)) by simp]
      rw [heq]
      simp

/-- Characterization of the restart fold of `propose_location`: starting
from best-so-far `b`, it returns a minimal-score entry, and it moves off
`b` only for a strictly better score, in which case the winner strictly
beats every earlier restart. -/
theorem proposeFold_char {σ : Type} :
    ∀ (rs : List (σ × ℚ)) (b : σ × ℚ),
      ∃ c, rs.foldl proposeStep (some b) = some c ∧
        (∀ j : Fin rs.length, c.2 ≤ (rs.get j).2) ∧
        ((c = b ∧ ∀ j : Fin rs.length, b.2 ≤ (rs.get j).2) ∨
         ∃ i : Fin rs.length, c = rs.get i ∧ c.2 < b.2 ∧
           ∀ j : Fin rs.length, j < i → c.2 < (rs.get j).2) := by
  intro rs
  induction rs with
  | nil =>
      intro b
      exact ⟨b, rfl, fun j => absurd j.isLt (by simp),
        Or.inl ⟨rfl, fun j => absurd j.isLt (by simp)⟩⟩
  | cons r rs' ih =>
      intro b
      by_cases hr : r.2 < b.2
      · obtain ⟨c, hc, hle, hcase⟩ := ih r
        have hstep : proposeStep (some b) r = some r := by
          simp [proposeStep, hr]
        have hcr : c.2 ≤ r.2 := by
          rcases hcase with ⟨rfl, -⟩ | ⟨i, -, hlt, -⟩
          · exact le_refl _
          · exact le_of_lt hlt
        refine ⟨c, by rw [List.foldl_cons, hstep]; exact hc, ?_, Or.inr ?_⟩
        · intro j
          refine Fin.cases ?_ ?_ j
          · simpa using hcr
          · intro j'
            simpa using hle j'
        · rcases hcase with ⟨rfl, -⟩ | ⟨i, hci, hlt, hbefore⟩
          · refine ⟨⟨0, by simp⟩, by simp, hr, ?_⟩
            intro j hj
            exact absurd hj (by simp [Fin.lt_def])
          · refine ⟨i.succ, by simpa using hci, lt_trans hlt hr, ?_⟩
            intro j hj
            revert hj
            refine Fin.cases ?_ ?_ j
            · intro hj0
              exact hlt
            · intro j' hj'
              exact hbefore j' (Fin.succ_lt_succ_iff.mp hj')
      · obtain ⟨c, hc, hle, hcase⟩ := ih b
        have hstep : proposeStep (some b) r = some b := by
          simp [proposeStep, hr]
        have hbr : b.2 ≤ r.2 := not_lt.mp hr
        refine ⟨c, by rw [List.foldl_cons, hstep]; exact hc, ?_, ?_⟩
        · intro j
          refine Fin.cases ?_ ?_ j
          · rcases hcase with ⟨rfl, -⟩ | ⟨i, -, hlt, -⟩
            · simpa using hbr
            · simpa using le_of_lt (lt_of_lt_of_le hlt hbr)
          · intro j'
            simpa using hle j'
        · rcases hcase with ⟨rfl, hall⟩ | ⟨i, hci, hlt, hbefore⟩
          · refine Or.inl ⟨rfl, ?_⟩
            intro j
            refine Fin.cases ?_ ?_ j
            · simpa using hbr
            · intro j'
              simpa using hall j'
          · refine Or.inr ⟨i.succ, by simpa using hci, hlt, ?_⟩
            intro j hj
            revert hj
            refine Fin.cases ?_ ?_ j
            · intro hj0
              exact lt_of_lt_of_le hlt hbr
            · intro j' hj'
              exact hbefore j' (Fin.succ_lt_succ_iff.mp hj')

end Optim

namespace Eval

/-- What a successful `_eval` run guarantees: the base/sample merge nested
successfully, the experiment directory is derived from the sample hash, the
returned results are exactly what the final state stores at the
`results.json` path, and the loss is the objective of those results. -/
theorem evalBinary_some {ρ : Type} {outputDir : Dict.Key} {keys : List Dict.Key}
    {base : List (Dict.Key × Int)} {objective : ρ → ℚ}
    {exec : Dict.Key → Dict.Key → FState ρ → Int × FState ρ}
    {st : FState ρ} {values : List Int} {r : EvalOut ρ}
    (h : evalBinary outputDir keys base objective exec st values = some r) :
    ∃ w, Dict.wrap_dict (Dict.merge_dicts base (keys.zip values)) = some w ∧
      r.dir = experimentDir outputDir keys values ∧
      Dict.dget r.state.results
        (experimentDir outputDir keys values ++ resultsName) = some r.res ∧
      r.loss = objective r.res := by
  rw [evalBinary] at h
  cases hw : Dict.wrap_dict (Dict.merge_dicts base (keys.zip values)) with
  | none =>
      rw [hw] at h
      simp at h
  | some w =>
      rw [hw] at h
      simp only at h
      refine ⟨w, rfl, ?_⟩
      split at h
      · simp at h
      · rename_i rr hget
        simp only [Option.some.injEq] at h
        subst h
        exact ⟨rfl, hget, rfl⟩

/-- A run that starts with the results file already present skips the
subprocess and returns the stored results unchanged. -/
theorem evalBinary_cached {ρ : Type} {outputDir : Dict.Key} {keys : List Dict.Key}
    {base : List (Dict.Key × Int)} {objective : ρ → ℚ}
    {exec : Dict.Key → Dict.Key → FState ρ → Int × FState ρ}
    {st : FState ρ} {values : List Int} {r : ρ} {w : Dict.NDict Int}
    (hw : Dict.wrap_dict (Dict.merge_dicts base (keys.zip values)) = some w)
    (hcached : Dict.dget st.results
      (experimentDir outputDir keys values ++ resultsName) = some r) :
    evalBinary outputDir keys base objective exec st values =
      some ⟨experimentDir outputDir keys values, r, objective r, false,
        ⟨st.results, Dict.dset st.params
          (experimentDir outputDir keys values ++ paramsName) w⟩⟩ := by
  rw [evalBinary, hw]
  simp [hcached]

end Eval

/-! ## The claims -/
/-- Claim C7: for every Real variable with `low < high`, denormalizing the
slot value `0.0` returns exactly `low` and `1.0` returns exactly `high`;
for every Integer variable with `low < high`, denormalizing `0.0` returns
`low` and `1.0` returns `high`, and every intermediate value follows the
single deterministic truncation-toward-zero rule
`int(x * (high - low) + low)`. -/
theorem C7_denormalize_bounds (lowR highR : ℚ) (hR : lowR < highR)
    (lowI highI : ℤ) (hI : lowI < highI) :
    Space.denormalizeReal lowR highR 0 = lowR ∧
    Space.denormalizeReal lowR highR 1 = highR ∧
    Space.denormalizeInt lowI highI 0 = lowI ∧
    Space.denormalizeInt lowI highI 1 = highI ∧
    ∀ x : ℚ, Space.denormalizeInt lowI highI x =
      Space.truncInt (x * (((highI : ℚ)) - ((lowI : ℚ))) + ((lowI : ℚ))) := by
  refine ⟨by simp [Space.denormalizeReal], by simp [Space.denormalizeReal],
    ?_, ?_, fun x => rfl⟩
  · have h0 : (0 : ℚ) * (((highI : ℚ)) - ((lowI : ℚ))) + ((lowI : ℚ)) =
        ((lowI : ℚ)) := by ring
    rw [Space.denormalizeInt, h0, Space.truncInt]
    split
    · exact Int.floor_intCast lowI
    · exact Int.ceil_intCast lowI
  · have h1 : (1 : ℚ) * (((highI : ℚ)) - ((lowI : ℚ))) + ((lowI : ℚ)) =
        ((highI : ℚ)) := by ring
    rw [Space.denormalizeInt, h1, Space.truncInt]
    split
    · exact Int.floor_intCast highI
    · exact Int.ceil_intCast highI

/-- Witness for C7 at `Real(0, 1)` and `Integer(-3, 2)`. -/
theorem C7_denormalize_bounds_witness :
    Space.denormalizeReal 0 1 0 = 0 ∧
    Space.denormalizeReal 0 1 1 = 1 ∧
    Space.denormalizeInt (-3) 2 0 = -3 ∧
    Space.denormalizeInt (-3) 2 1 = 2 ∧
    ∀ x : ℚ, Space.denormalizeInt (-3) 2 x =
      Space.truncInt (x * (((2 : ℤ) : ℚ) - (((-3 : ℤ)) : ℚ)) + (((-3 : ℤ)) : ℚ)) :=
  C7_denormalize_bounds 0 1 (by norm_num) (-3) 2 (by norm_num)

/-- Claim C8: after `fit(xs, ys)` with regularized covariance
`K = kernel(xs, xs) + sigma_n * I`, `predict(x)` returns posterior mean
`mu = K_s · K⁻¹ · ys` and posterior covariance
`cov = K_ss - K_s · K⁻¹ · K_sᵀ`, with `K_s = kernel(x, xs)` and
`K_ss = kernel(x, x) + sigma_n * I`, for every input batch `x`. -/
theorem C8_gp_predict {π : Type} (m : GP.Model π) {n p : ℕ}
    (xs : Fin n → π) (ys : Fin n → ℚ) (x : Fin p → π) :
    (m.fit xs ys).predict x =
      ((m.kernel p n x xs *
          (m.kernel n n xs xs + m.sigma_n • (1 : Matrix (Fin n) (Fin n) ℚ))⁻¹).mulVec ys,
       (m.kernel p p x x + m.sigma_n • (1 : Matrix (Fin p) (Fin p) ℚ)) -
         m.kernel p n x xs *
           (m.kernel n n xs xs + m.sigma_n • (1 : Matrix (Fin n) (Fin n) ℚ))⁻¹ *
           (m.kernel p n x xs).transpose) := by
  rw [GP.Model.fit, GP.Fitted.predict]
  rw [GP.matInv_eq_inv]

/-- Claim C10: a `device_id` provider with pool size `count ≥ 1` returns on
its k-th call the integer `(k - 1) % count`, always in `[0, count)`, for
every sequence of context arguments (the context is never consulted). -/
theorem C10_device_id {γ : Type} (count : ℤ) (hc : 1 ≤ count) (ctxs : ℕ → γ)
    (k : ℕ) (hk : 1 ≤ k) :
    ((Misc.callSeq (Misc.deviceIdInit count) ctxs (k - 1)).call
        (ctxs (k - 1))).1 = ((k : ℤ) - 1) % count ∧
    0 ≤ ((Misc.callSeq (Misc.deviceIdInit count) ctxs (k - 1)).call
        (ctxs (k - 1))).1 ∧
    ((Misc.callSeq (Misc.deviceIdInit count) ctxs (k - 1)).call
        (ctxs (k - 1))).1 < count := by
  have hc0 : count ≠ 0 := by omega
  have hcpos : 0 < count := by omega
  obtain ⟨hcnt, hidx⟩ := Misc.callSeq_state count ctxs (k - 1)
  have hval : ((Misc.callSeq (Misc.deviceIdInit count) ctxs (k - 1)).call
      (ctxs (k - 1))).1 =
      ((Misc.callSeq (Misc.deviceIdInit count) ctxs (k - 1)).index + 1) % count := by
    rw [Misc.DeviceId.call, hcnt]
  rw [hval, hidx]
  refine ⟨?_, Int.emod_nonneg _ hc0, Int.emod_lt_of_pos _ hcpos⟩
  by_cases h1 : k - 1 = 0
  · have : k = 1 := by omega
    subst this
    norm_num
  · rw [if_neg h1, Int.emod_add_emod]
    congr 1
    have : (1 : ℕ) ≤ k - 1 := by omega
    push_cast [Nat.cast_sub hk, Nat.cast_sub this]
    ring

/-- Witness for C10: with a pool of 3 devices, the 5th call returns
`(5 - 1) % 3 = 1`, within `[0, 3)`. -/
theorem C10_device_id_witness :
    ((Misc.callSeq (Misc.deviceIdInit 3) (fun _ => ()) (5 - 1)).call
        ((fun _ => ()) (5 - 1))).1 = ((5 : ℤ) - 1) % 3 ∧
    0 ≤ ((Misc.callSeq (Misc.deviceIdInit 3) (fun _ => ()) (5 - 1)).call
        ((fun _ => ()) (5 - 1))).1 ∧
    ((Misc.callSeq (Misc.deviceIdInit 3) (fun _ => ()) (5 - 1)).call
        ((fun _ => ()) (5 - 1))).1 < 3 :=
  C10_device_id 3 (by norm_num) (fun _ => ()) 5 (by norm_num)

/-- Counterexample to claim C4 as stated: the nested dict `{"a": {}}` has
no key containing the separator, yet `wrap_dict(unwrap_dict(d))` is `{}`,
not `d` — flattening erases empty nested dicts. -/
theorem C4_roundtrip_counterexample :
    Dict.wrap_dict (Dict.unwrap_dict
        [((['a'] : Dict.Key), Dict.NVal.dict ([] : Dict.NDict ℤ))]) ≠
      some [((['a'] : Dict.Key), Dict.NVal.dict ([] : Dict.NDict ℤ))] ∧
    ∀ k ∈ Dict.dkeys [((['a'] : Dict.Key), Dict.NVal.dict ([] : Dict.NDict ℤ))],
      Dict.sepChar ∉ k := by
  constructor
  · have h : Dict.unwrap_dict
        [((['a'] : Dict.Key), Dict.NVal.dict ([] : Dict.NDict ℤ))] = [] := by
      simp [Dict.unwrap_dict, Dict.unwrapEntries]
    rw [h]
    have h2 : Dict.wrap_dict ([] : List (Dict.Key × ℤ)) = some [] := rfl
    rw [h2]
    intro hc
    have := Option.some.inj hc
    exact List.cons_ne_nil _ _ this.symm
  · decide

/-- Claim C4 as amended: for every nested dict whose keys are (at every
level) distinct, non-empty, and separator-free, and in which no nested
dict value is empty, `wrap_dict (unwrap_dict d) = d`. -/
theorem C4_roundtrip_amended {V : Type} (d : Dict.NDict V)
    (h : Dict.wfEntries d = true) :
    Dict.wrap_dict (Dict.unwrap_dict d) = some d :=
  Dict.wrap_unwrap_dict d h

/-- Witness for the amended C4 on `{"a": {"b": 1}, "c": 2}`. -/
theorem C4_roundtrip_amended_witness :
    Dict.wrap_dict (Dict.unwrap_dict
        [((['a'] : Dict.Key), Dict.NVal.dict [(['b'], Dict.NVal.leaf (1 : ℤ))]),
         (['c'], Dict.NVal.leaf 2)]) =
      some [((['a'] : Dict.Key), Dict.NVal.dict [(['b'], Dict.NVal.leaf (1 : ℤ))]),
        (['c'], Dict.NVal.leaf 2)] :=
  C4_roundtrip_amended _ (by
    simp [Dict.wfEntries, Dict.keyOk, Dict.dkeys, Dict.sepChar])

/-- Counterexample to claim C5 as stated: the two flat maps
`{"a": 1, "b": 2}` and `{"b": 2, "a": 1}` hold the same key-value pairs
(they are permutations of one another), yet `hash_json` gives different
digests, because `json.dumps` is called without `sort_keys` and serializes
in insertion order. -/
theorem C5_hash_counterexample :
    Dict.hash_json [((['a'] : Dict.Key), (1 : ℤ)), (['b'], 2)] ≠
      Dict.hash_json [((['b'] : Dict.Key), (2 : ℤ)), (['a'], 1)] ∧
    ([((['a'] : Dict.Key), (1 : ℤ)), (['b'], 2)]).Perm
      [((['b'] : Dict.Key), (2 : ℤ)), (['a'], 1)] := by
  constructor
  · decide
  · exact List.Perm.swap _ _ _

/-- Claim C5 as amended: `hash_json` is a deterministic function of the
serialized entry sequence, which preserves insertion order: two flat maps
with the same key-value pairs at the same positions receive the same
digest (but, per the counterexample, permuting the insertion order may
change it). -/
theorem C5_hash_deterministic (d₁ d₂ : List (Dict.Key × Int))
    (h : ∀ i, d₁.get? i = d₂.get? i) :
    Dict.hash_json d₁ = Dict.hash_json d₂ := by
  rw [List.ext h]

/-- Witness for the amended C5. -/
theorem C5_hash_deterministic_witness :
    Dict.hash_json [((['a'] : Dict.Key), (1 : ℤ))] =
      Dict.hash_json [((['a'] : Dict.Key), (1 : ℤ))] :=
  C5_hash_deterministic _ _ fun _ => rfl

/-- Claim C1: with `n_calls ≥ n_initial_points ≥ 1`, for every loss
function (and every sampler, proposal procedure and denormalizer)
`bayesian_optimization` evaluates the loss exactly `n_calls` times — once
per returned pair — and returns the full list of
`(denormalized point, objective)` pairs of length `n_calls` in evaluation
order: the first `n_initial_points` points come from the random phase and
the remaining `n_calls - n_initial_points` from the GP-guided phase. -/
theorem C1_evaluation_count {σ α : Type} (stream : ℕ → σ)
    (propose : List σ → List ℚ → σ) (denorm : σ → α) (loss : α → ℚ)
    (nInit nCalls : ℕ) (h1 : 1 ≤ nInit) (h2 : nInit ≤ nCalls) :
    ∃ proposed : List σ, proposed.length = nCalls - nInit ∧
      Optim.bayesian_optimization stream propose denorm loss nInit nCalls =
        ((List.range nInit).map stream ++ proposed).map
          (fun xn => (denorm xn, loss (denorm xn))) ∧
      (Optim.bayesian_optimization stream propose denorm loss nInit nCalls).length =
        nCalls := by
  obtain ⟨ext, hlen, heq⟩ := Optim.gpLoop_spec propose denorm loss
    (nCalls - nInit) ((List.range nInit).map stream)
  have hmain : Optim.bayesian_optimization stream propose denorm loss nInit nCalls =
      ((List.range nInit).map stream ++ ext).map
        (fun xn => (denorm xn, loss (denorm xn))) := by
    rw [Optim.bayesian_optimization]
    simp only [List.map_map, Function.comp_def] at heq ⊢
    rw [heq, List.zip_map']
  exact ⟨ext, hlen, hmain, by rw [hmain]; simp [hlen]; omega⟩

/-- Witness for C1 with `n_initial_points = 1`, `n_calls = 2`. -/
theorem C1_evaluation_count_witness :
    ∃ proposed : List ℕ, proposed.length = 2 - 1 ∧
      Optim.bayesian_optimization (fun i => i) (fun _ _ => 5) (fun s => s)
          (fun n : ℕ => (n : ℚ)) 1 2 =
        ((List.range 1).map (fun i => i) ++ proposed).map
          (fun xn => (xn, ((xn : ℕ) : ℚ))) ∧
      (Optim.bayesian_optimization (fun i => i) (fun _ _ => 5) (fun s => s)
          (fun n : ℕ => (n : ℚ)) 1 2).length = 2 :=
  C1_evaluation_count (fun i => i) (fun _ _ => 5) (fun s => s)
    (fun n : ℕ => (n : ℚ)) 1 2 (by norm_num) (by norm_num)

/-- Counterexample to claim C3 as stated: calling the optimization entry
point with `n_calls = 1 < n_initial_points = 2` raises nothing — the run
completes normally, the loss is evaluated twice (once per returned pair),
and the GP-guided phase is silently skipped (`range` of a negative count
is empty), contradicting "raises a configuration error immediately at
entry, before any evaluation of the objective occurs". -/
theorem C3_no_validation_counterexample :
    Optim.bayesian_optimization (fun i => i) (fun _ _ => 0) (fun s => s)
        (fun n : ℕ => (n : ℚ)) 2 1 = [(0, 0), (1, 1)] := by
  decide

/-- Claim C3 as amended: when `n_calls < n_initial_points` no error is
raised; the random phase still evaluates the loss `n_initial_points`
times, the GP-guided phase contributes nothing, and the result has
`n_initial_points` (not `n_calls`) pairs. -/
theorem C3_no_validation_amended {σ α : Type} (stream : ℕ → σ)
    (propose : List σ → List ℚ → σ) (denorm : σ → α) (loss : α → ℚ)
    (nInit nCalls : ℕ) (h : nCalls < nInit) :
    Optim.bayesian_optimization stream propose denorm loss nInit nCalls =
      ((List.range nInit).map stream).map
        (fun xn => (denorm xn, loss (denorm xn))) ∧
    (Optim.bayesian_optimization stream propose denorm loss nInit nCalls).length =
      nInit := by
  obtain ⟨ext, hlen, heq⟩ := Optim.gpLoop_spec propose denorm loss
    (nCalls - nInit) ((List.range nInit).map stream)
  rw [Nat.sub_eq_zero_of_le (le_of_lt h)] at heq
  have hext : ext = [] := by
    rw [Nat.sub_eq_zero_of_le (le_of_lt h)] at hlen
    exact List.length_eq_zero.mp hlen
  subst hext
  have hmain : Optim.bayesian_optimization stream propose denorm loss nInit nCalls =
      ((List.range nInit).map stream).map
        (fun xn => (denorm xn, loss (denorm xn))) := by
    rw [Optim.bayesian_optimization]
    rw [Nat.sub_eq_zero_of_le (le_of_lt h)]
    simp only [List.append_nil] at heq
    simp only [List.map_map, Function.comp_def] at heq ⊢
    rw [heq, List.zip_map']
  exact ⟨hmain, by rw [hmain]; simp⟩

/-- Getting an element of a mapped list. -/
theorem get_map_nat {β γ : Type} (f : β → γ) (l : List β) (i : ℕ)
    (h : i < l.length) (h' : i < (l.map f).length) :
    (l.map f).get ⟨i, h'⟩ = f (l.get ⟨i, h⟩) := by
  simp

/-- Claim C9: `propose_location` returns the point of the earliest restart
attaining the minimal acquisition score: the returned point comes from a
restart index `i` whose score is a global minimum, and every strictly
earlier restart has a strictly worse score — so on exact ties the lowest
restart index wins, and the proposal is deterministic given a
deterministic local optimizer and sampling. -/
theorem C9_propose_earliest_min {σ : Type} (minimizeFn : σ → σ × ℚ)
    (starts : List σ) (h : starts ≠ []) :
    ∃ i : Fin starts.length,
      Optim.propose_location minimizeFn starts =
        some (minimizeFn (starts.get i)).1 ∧
      (∀ j : Fin starts.length,
        (minimizeFn (starts.get i)).2 ≤ (minimizeFn (starts.get j)).2) ∧
      ∀ j : Fin starts.length, j < i →
        (minimizeFn (starts.get i)).2 < (minimizeFn (starts.get j)).2 := by
  cases starts with
  | nil => exact absurd rfl h
  | cons s₀ rest =>
      obtain ⟨c, hc, hle, hcase⟩ :=
        Optim.proposeFold_char (rest.map minimizeFn) (minimizeFn s₀)
      have hfold : Optim.propose_location minimizeFn (s₀ :: rest) = some c.1 := by
        rw [Optim.propose_location, List.map_cons, List.foldl_cons]
        rw [show Optim.proposeStep none (minimizeFn s₀) = some (minimizeFn s₀)
          from rfl]
        rw [hc]
        rfl
      have hlen : (rest.map minimizeFn).length = rest.length :=
        List.length_map _ _
      rcases hcase with ⟨hcb, -⟩ | ⟨i', hci, hlt, hbefore⟩
      · refine ⟨⟨0, by simp⟩, by rw [hfold, hcb]; exact rfl, ?_, ?_⟩
        · intro j
          rcases j with ⟨jv, hj⟩
          cases jv with
          | zero => exact le_refl _
          | succ j' =>
              have hj' : j' < rest.length := by
                simpa using hj
              have := hle ⟨j', by rw [hlen]; exact hj'⟩
              rw [get_map_nat minimizeFn rest j' hj'] at this
              rw [hcb] at this
              exact this
        · intro j hj
          exact absurd hj (by simp [Fin.lt_def])
      · have hi'v : i'.val < rest.length := lt_of_lt_of_eq i'.isLt hlen
        refine ⟨⟨i'.val + 1, by simpa using hi'v⟩, ?_, ?_, ?_⟩
        · rw [hfold, hci, get_map_nat minimizeFn rest i'.val hi'v]
          exact rfl
        · intro j
          have hcget : c.2 = (minimizeFn (rest.get ⟨i'.val, hi'v⟩)).2 := by
            rw [hci, get_map_nat minimizeFn rest i'.val hi'v]
          rcases j with ⟨jv, hj⟩
          cases jv with
          | zero =>
              rw [show ((s₀ :: rest).get ⟨0, hj⟩) = s₀ from rfl]
              rw [show ((s₀ :: rest).get ⟨i'.val + 1, _⟩) =
                rest.get ⟨i'.val, hi'v⟩ from rfl]
              rw [← hcget]
              exact le_of_lt hlt
          | succ j' =>
              have hj' : j' < rest.length := by simpa using hj
              have := hle ⟨j', by rw [hlen]; exact hj'⟩
              rw [get_map_nat minimizeFn rest j' hj'] at this
              rw [show ((s₀ :: rest).get ⟨j' + 1, hj⟩) =
                rest.get ⟨j', hj'⟩ from rfl]
              rw [show ((s₀ :: rest).get ⟨i'.val + 1, _⟩) =
                rest.get ⟨i'.val, hi'v⟩ from rfl]
              rw [← hcget]
              exact this
        · intro j hj
          have hcget : c.2 = (minimizeFn (rest.get ⟨i'.val, hi'v⟩)).2 := by
            rw [hci, get_map_nat minimizeFn rest i'.val hi'v]
          rcases j with ⟨jv, hjlt⟩
          cases jv with
          | zero =>
              rw [show ((s₀ :: rest).get ⟨0, hjlt⟩) = s₀ from rfl]
              rw [show ((s₀ :: rest).get ⟨i'.val + 1, _⟩) =
                rest.get ⟨i'.val, hi'v⟩ from rfl]
              rw [← hcget]
              exact hlt
          | succ j' =>
              have hj' : j' < rest.length := by simpa using hjlt
              have hjlt' : (⟨j', by rw [hlen]; exact hj'⟩ : Fin (rest.map minimizeFn).length) < i' := by
                simp only [Fin.lt_def] at hj ⊢
                simpa using hj
              have := hbefore ⟨j', by rw [hlen]; exact hj'⟩ hjlt'
              rw [get_map_nat minimizeFn rest j' hj'] at this
              rw [show ((s₀ :: rest).get ⟨j' + 1, hjlt⟩) =
                rest.get ⟨j', hj'⟩ from rfl]
              rw [show ((s₀ :: rest).get ⟨i'.val + 1, _⟩) =
                rest.get ⟨i'.val, hi'v⟩ from rfl]
              rw [← hcget]
              exact this

/-- Witness for C9 on two restarts with exactly tied scores. -/
theorem C9_propose_earliest_min_witness :
    ∃ i : Fin ([1, 2] : List ℕ).length,
      Optim.propose_location (fun s : ℕ => (s, (1 : ℚ))) [1, 2] =
        some ((fun s : ℕ => (s, (1 : ℚ))) (([1, 2] : List ℕ).get i)).1 ∧
      (∀ j : Fin ([1, 2] : List ℕ).length,
        ((fun s : ℕ => (s, (1 : ℚ))) (([1, 2] : List ℕ).get i)).2 ≤
          ((fun s : ℕ => (s, (1 : ℚ))) (([1, 2] : List ℕ).get j)).2) ∧
      ∀ j : Fin ([1, 2] : List ℕ).length, j < i →
        ((fun s : ℕ => (s, (1 : ℚ))) (([1, 2] : List ℕ).get i)).2 <
          ((fun s : ℕ => (s, (1 : ℚ))) (([1, 2] : List ℕ).get j)).2 :=
  C9_propose_earliest_min (fun s : ℕ => (s, (1 : ℚ))) [1, 2] (by simp)

/-- Claim C2: under the caching layer in binary mode, evaluating the same
sampled values twice produces the same content hash — hence the same
experiment directory — and the second evaluation skips the subprocess
(`executed = false`) and returns the result parsed from the persisted
`results.json` of the first run, unchanged (same results, same loss,
results store untouched). -/
theorem C2_cache_idempotent {ρ : Type} (outputDir : Dict.Key)
    (keys : List Dict.Key) (base : List (Dict.Key × Int)) (objective : ρ → ℚ)
    (exec exec' : Dict.Key → Dict.Key → Eval.FState ρ → Int × Eval.FState ρ)
    (st : Eval.FState ρ) (values : List Int)
    (h : (Eval.evalBinary outputDir keys base objective exec st values).isSome = true) :
    ∃ r₁ r₂ : Eval.EvalOut ρ,
      Eval.evalBinary outputDir keys base objective exec st values = some r₁ ∧
      Eval.evalBinary outputDir keys base objective exec' r₁.state values = some r₂ ∧
      r₁.dir = Eval.experimentDir outputDir keys values ∧
      r₂.dir = r₁.dir ∧
      r₂.executed = false ∧
      r₂.res = r₁.res ∧
      r₂.loss = r₁.loss ∧
      r₂.state.results = r₁.state.results := by
  obtain ⟨r₁, hr₁⟩ := Option.isSome_iff_exists.mp h
  obtain ⟨w, hw, hdir, hres, hloss⟩ := Eval.evalBinary_some hr₁
  have h2 := @Eval.evalBinary_cached ρ outputDir keys base objective exec'
    r₁.state values r₁.res w hw hres
  exact ⟨r₁, _, hr₁, h2, hdir, hdir.symm, rfl, rfl, hloss.symm, rfl⟩

/-- Witness for C2: a first run whose subprocess writes the results file,
followed by a cache-hit rerun of the same sampled values. -/
theorem C2_cache_idempotent_witness :
    ∃ r₁ r₂ : Eval.EvalOut ℤ,
      Eval.evalBinary ([] : Dict.Key) [['a']] [] (fun r : ℤ => (r : ℚ))
          (fun _ rp s => (0, ⟨Dict.dset s.results rp 7, s.params⟩))
          ⟨[], []⟩ [3] = some r₁ ∧
      Eval.evalBinary ([] : Dict.Key) [['a']] [] (fun r : ℤ => (r : ℚ))
          (fun _ rp s => (0, ⟨Dict.dset s.results rp 9, s.params⟩))
          r₁.state [3] = some r₂ ∧
      r₁.dir = Eval.experimentDir ([] : Dict.Key) [['a']] [3] ∧
      r₂.dir = r₁.dir ∧
      r₂.executed = false ∧
      r₂.res = r₁.res ∧
      r₂.loss = r₁.loss ∧
      r₂.state.results = r₁.state.results :=
  C2_cache_idempotent ([] : Dict.Key) [['a']] [] (fun r : ℤ => (r : ℚ))
    (fun _ rp s => (0, ⟨Dict.dset s.results rp 7, s.params⟩))
    (fun _ rp s => (0, ⟨Dict.dset s.results rp 9, s.params⟩))
    ⟨[], []⟩ [3] (by decide)

/-- Counterexample to claim C6 as stated: a subprocess that exits with the
non-zero status `1` but still writes `results.json` does not make the
evaluation fail — the run proceeds exactly as on success (`executed = true`
and the parsed results are returned), because `popen.wait()`'s return
value is discarded and no `EvaluationError` exists. -/
theorem C6_exit_status_counterexample :
    ((Eval.evalBinary ([] : Dict.Key) [['a']] [] (fun r : ℤ => (r : ℚ))
        (fun _ rp s => (1, ⟨Dict.dset s.results rp 42, s.params⟩))
        ⟨[], []⟩ [1]).map fun r => (r.executed, r.res)) = some (true, 42) := by
  decide

/-- Claim C6 as amended: the engine ignores the subprocess exit status
entirely — the outcome of `_eval` is identical for any two exit codes with
the same filesystem effect — and the evaluation fails (with a file error,
not an `EvaluationError` class) exactly when `results.json` is missing
after the subprocess step. -/
theorem C6_exit_ignored_amended {ρ : Type} (outputDir : Dict.Key)
    (keys : List Dict.Key) (base : List (Dict.Key × Int)) (objective : ρ → ℚ)
    (e : Dict.Key → Dict.Key → Eval.FState ρ → Eval.FState ρ) (c₁ c₂ : Int)
    (st : Eval.FState ρ) (values : List Int) (w : Dict.NDict Int)
    (hw : Dict.wrap_dict (Dict.merge_dicts base (keys.zip values)) = some w)
    (hnc : Dict.dget st.results
      (Eval.experimentDir outputDir keys values ++ Eval.resultsName) = none)
    (hmiss : Dict.dget
      (e (Eval.experimentDir outputDir keys values ++ Eval.paramsName)
        (Eval.experimentDir outputDir keys values ++ Eval.resultsName)
        ⟨st.results, Dict.dset st.params
          (Eval.experimentDir outputDir keys values ++ Eval.paramsName) w⟩).results
      (Eval.experimentDir outputDir keys values ++ Eval.resultsName) = none) :
    Eval.evalBinary outputDir keys base objective
        (fun pp rp s => (c₁, e pp rp s)) st values =
      Eval.evalBinary outputDir keys base objective
        (fun pp rp s => (c₂, e pp rp s)) st values ∧
    Eval.evalBinary outputDir keys base objective
        (fun pp rp s => (c₁, e pp rp s)) st values = none := by
  refine ⟨rfl, ?_⟩
  rw [Eval.evalBinary, hw]
  simp [hnc, hmiss]

/-- Witness for the amended C6: a subprocess that writes nothing leaves the
results file missing, so the evaluation errors out, with the same outcome
under exit codes 0 and 1. -/
theorem C6_exit_ignored_amended_witness :
    Eval.evalBinary ([] : Dict.Key) [['a']] [] (fun r : ℤ => (r : ℚ))
        (fun pp rp s => (0, (fun _ _ s' => s') pp rp s)) ⟨[], []⟩ [1] =
      Eval.evalBinary ([] : Dict.Key) [['a']] [] (fun r : ℤ => (r : ℚ))
        (fun pp rp s => (1, (fun _ _ s' => s') pp rp s)) ⟨[], []⟩ [1] ∧
    Eval.evalBinary ([] : Dict.Key) [['a']] [] (fun r : ℤ => (r : ℚ))
        (fun pp rp s => (0, (fun _ _ s' => s') pp rp s)) ⟨[], []⟩ [1] = none :=
  C6_exit_ignored_amended ([] : Dict.Key) [['a']] [] (fun r : ℤ => (r : ℚ))
    (fun _ _ s' => s') 0 1 ⟨[], []⟩ [1] [(['a'], Dict.NVal.leaf 1)]
    (by rfl) (by rfl) (by rfl)

/-- Witness for the amended C3 at `n_initial_points = 2`, `n_calls = 1`. -/
theorem C3_no_validation_amended_witness :
    Optim.bayesian_optimization (fun i => i) (fun _ _ => 9) (fun s => s)
        (fun n : ℕ => (n : ℚ)) 2 1 =
      ((List.range 2).map (fun i => i)).map (fun xn => (xn, ((xn : ℕ) : ℚ))) ∧
    (Optim.bayesian_optimization (fun i => i) (fun _ _ => 9) (fun s => s)
        (fun n : ℕ => (n : ℚ)) 2 1).length = 2 :=
  C3_no_validation_amended (fun i => i) (fun _ _ => 9) (fun s => s)
    (fun n : ℕ => (n : ℚ)) 2 1 (by norm_num)

end Hypered
